import Mathlib

/-!
Verification development for the receipt-to-markdown/JSON pipeline
(`receipt_io.py`, `app.py`, `prompts.py`).

The Python source is shallowly embedded: file systems become explicit lists
of named entries, `pathlib` path resolution becomes component-list
normalisation, and the external model service becomes an oracle function.
Each embedded definition carries a comment pointing at the source function
it translates.
-/

namespace ReceiptIO

/-- Python's `str.isspace` restricted to the ASCII whitespace characters
(space, tab, newline, carriage return, vertical tab, form feed), which is
what `str.strip()` removes at either end. -/
def pyIsSpace (c : Char) : Bool :=
  c = ' ' || c = '\t' || c = '\n' || c = '\r' || c = '\x0b' || c = '\x0c'

/-- Python `str.strip()` on a character list: drop whitespace from both ends. -/
def pyStripL (l : List Char) : List Char :=
  (((l.dropWhile pyIsSpace).reverse.dropWhile pyIsSpace)).reverse

/-- Python `str.strip()` on strings. -/
def pyStrip (s : String) : String :=
  ⟨pyStripL s.data⟩

/-- `str.replace(old, new)` for single characters. -/
def replaceChar (a b : Char) (l : List Char) : List Char :=
  l.map (fun c => if c = a then b else c)

/-- `receipt_io.sanitize_filename`: replace each character of the unsafe set
`\x7b"/", "\\"\x7d` by an underscore, then strip surrounding whitespace.  The
Python loop applies the two single-character replacements one after the other
(set iteration order is irrelevant: the two replacements commute and neither
produces the other's target). -/
def sanitize_filename (s : String) : String :=
  pyStrip ⟨replaceChar '\\' '_' (replaceChar '/' '_' s.data)⟩

/-- The spec's description of sanitisation: replace every path-separator
character by an underscore (one pass), then trim surrounding whitespace. -/
def sanitizeSpec (s : String) : String :=
  pyStrip ⟨s.data.map (fun c => if c = '/' || c = '\\' then '_' else c)⟩

lemma replaceChar_replaceChar (l : List Char) :
    replaceChar '\\' '_' (replaceChar '/' '_' l) =
      l.map (fun c => if c = '/' || c = '\\' then '_' else c) := by
  simp only [replaceChar, List.map_map]
  apply List.map_congr_left
  intro c _
  by_cases h1 : c = '/'
  · simp [h1]
  · by_cases h2 : c = '\\' <;> simp [h1, h2, Function.comp]

lemma sanitize_eq_spec (s : String) : sanitize_filename s = sanitizeSpec s := by
  simp [sanitize_filename, sanitizeSpec, replaceChar_replaceChar]

lemma mem_pyStripL {c : Char} {l : List Char} (h : c ∈ pyStripL l) : c ∈ l := by
  simp only [pyStripL, List.mem_reverse] at h
  have h1 := List.dropWhile_subset pyIsSpace h
  rw [List.mem_reverse] at h1
  exact List.dropWhile_subset pyIsSpace h1

/-- No path separator survives sanitisation. -/
lemma sanitize_no_sep (s : String) {c : Char} (hc : c ∈ (sanitize_filename s).data) :
    c ≠ '/' ∧ c ≠ '\\' := by
  have h := mem_pyStripL hc
  rw [replaceChar_replaceChar] at h
  rcases List.mem_map.mp h with ⟨a, _, ha⟩
  constructor <;> intro hEq <;> rw [hEq] at ha <;>
    by_cases h1 : a = '/' <;> by_cases h2 : a = '\\' <;> simp_all

lemma dropWhile_eq_self_of_head {α : Type} (p : α → Bool) (l : List α)
    (h : ∀ (hl : l ≠ []), p (l.head hl) = false) : l.dropWhile p = l := by
  cases l with
  | nil => rfl
  | cons a t =>
    have ha := h (by simp)
    simp only [List.head_cons] at ha
    simp [List.dropWhile_cons, ha]

lemma dropWhile_dropWhile {α : Type} (p : α → Bool) (x : List α) :
    List.dropWhile p (List.dropWhile p x) = List.dropWhile p x :=
  dropWhile_eq_self_of_head p _ (fun hl => List.head_dropWhile_not p x hl)

lemma head_pyStripL_not (l : List Char) (hne : pyStripL l ≠ []) :
    pyIsSpace ((pyStripL l).head hne) = false := by
  unfold pyStripL at hne ⊢
  rw [List.head_reverse]
  have hdne : (List.dropWhile pyIsSpace l).reverse.dropWhile pyIsSpace ≠ [] := by
    intro h
    rw [h] at hne
    exact hne rfl
  have hsuf : (List.dropWhile pyIsSpace l).reverse.dropWhile pyIsSpace
      <:+ (List.dropWhile pyIsSpace l).reverse := List.dropWhile_suffix pyIsSpace
  rw [hsuf.getLast hdne, List.getLast_reverse]
  exact List.head_dropWhile_not pyIsSpace l _

lemma dropWhile_pyStripL (l : List Char) :
    (pyStripL l).dropWhile pyIsSpace = pyStripL l :=
  dropWhile_eq_self_of_head pyIsSpace _ (head_pyStripL_not l)

lemma pyStripL_idem (l : List Char) : pyStripL (pyStripL l) = pyStripL l := by
  conv_lhs => rw [pyStripL, dropWhile_pyStripL]
  rw [pyStripL, List.reverse_reverse, dropWhile_dropWhile]

/-! ### Output writing (`receipt_io.write_output`, `ensure_directory`) -/

/-- A flat model of the file system as seen by `write_output`: the set of
directories that exist, and file contents addressed by full path. -/
structure FS where
  dirs : List String
  files : String → Option String

/-- `receipt_io.ensure_directory`: `Path.mkdir(parents=True, exist_ok=True)` —
creates the directory when absent, succeeds silently when present.  (Parent
creation is not modelled; the claims only concern the target directory.) -/
def ensure_directory (dirs : List String) (d : String) : List String :=
  if d ∈ dirs then dirs else d :: dirs

/-- `Path.write_text`: create or overwrite the file at `path` with `content`. -/
def write_text (fs : FS) (path content : String) : FS :=
  ⟨fs.dirs, fun p => if p = path then some content else fs.files p⟩

/-- `receipt_io.write_output`: pick the extension from the output format,
sanitise the receipt name, ensure the output directory, and write
`<output_dir>/<safe_name>.<ext>`.  Returns the written path and the new
file-system state. -/
def write_output (receipt_name content output_format output_dir : String)
    (fs : FS) : String × FS :=
  let ext := if output_format = "markdown" then "md" else "json"
  let safe_name := sanitize_filename receipt_name
  let fs1 : FS := ⟨ensure_directory fs.dirs output_dir, fs.files⟩
  let path := output_dir ++ "/" ++ safe_name ++ "." ++ ext
  (path, write_text fs1 path content)

lemma ensure_directory_mem (dirs : List String) (d : String) :
    d ∈ ensure_directory dirs d := by
  unfold ensure_directory
  by_cases h : d ∈ dirs <;> simp [h]

lemma ensure_directory_idem (dirs : List String) (d : String) :
    ensure_directory (ensure_directory dirs d) d = ensure_directory dirs d := by
  unfold ensure_directory
  by_cases h : d ∈ dirs <;> simp [h]

/-! ### Python string comparison

Python compares strings lexicographically by code point.  Lean's built-in
`String` order is implemented on UTF-8 byte iterators and does not reduce in
the kernel, so the comparison is re-implemented on the underlying character
lists (`Char`'s order is by code point, exactly Python's). -/

/-- Python `<` on strings, as lexicographic order on the character lists. -/
def lexLt : List Char → List Char → Bool
  | [], [] => false
  | [], _ :: _ => true
  | _ :: _, [] => false
  | a :: as, b :: bs => if a < b then true else if b < a then false else lexLt as bs

/-- Python `s1 < s2`. -/
def strLt (a b : String) : Bool := lexLt a.data b.data

/-- Python `s1 <= s2` (`not (s2 < s1)`). -/
def strLe (a b : String) : Bool := !(lexLt b.data a.data)

lemma lexLt_irrefl (l : List Char) : lexLt l l = false := by
  induction l with
  | nil => rfl
  | cons a t ih => simp [lexLt, ih, lt_irrefl]

lemma lexLt_trichotomy (l1 l2 : List Char) :
    lexLt l1 l2 = true ∨ l1 = l2 ∨ lexLt l2 l1 = true := by
  induction l1 generalizing l2 with
  | nil => cases l2 <;> simp [lexLt]
  | cons a as ih =>
    cases l2 with
    | nil => simp [lexLt]
    | cons b bs =>
      rcases lt_trichotomy a b with hab | hab | hab
      · left; simp [lexLt, hab]
      · subst hab
        rcases ih bs with h | h | h
        · left; simp [lexLt, lt_irrefl, h]
        · right; left; rw [h]
        · right; right; simp [lexLt, lt_irrefl, h]
      · right; right; simp [lexLt, hab]

lemma lexLt_trans {l1 l2 l3 : List Char} (h1 : lexLt l1 l2 = true)
    (h2 : lexLt l2 l3 = true) : lexLt l1 l3 = true := by
  induction l1 generalizing l2 l3 with
  | nil =>
    cases l3 with
    | nil => cases l2 <;> simp [lexLt] at h1 h2
    | cons c cs => simp [lexLt]
  | cons a as ih =>
    cases l2 with
    | nil => simp [lexLt] at h1
    | cons b bs =>
      cases l3 with
      | nil => simp [lexLt] at h2
      | cons c cs =>
        simp only [lexLt] at h1 h2 ⊢
        rcases lt_trichotomy a b with hab | hab | hab
        · rcases lt_trichotomy b c with hbc | hbc | hbc
          · simp [lt_trans hab hbc]
          · subst hbc; simp [hab]
          · simp [hbc, not_lt_of_gt hbc, lt_irrefl] at h2
        · subst hab
          rcases lt_trichotomy a c with hac | hac | hac
          · simp [hac]
          · subst hac
            simp only [lt_irrefl, if_false, ite_false] at h1 h2 ⊢
            exact ih h1 h2
          · simp [hac, not_lt_of_gt hac] at h2
        · simp [hab, not_lt_of_gt hab] at h1

lemma lexLt_asymm {l1 l2 : List Char} (h : lexLt l1 l2 = true) :
    lexLt l2 l1 = false := by
  by_contra hc
  rw [Bool.not_eq_false] at hc
  have h0 := lexLt_trans h hc
  rw [lexLt_irrefl] at h0
  simp at h0

lemma strLe_total (a b : String) : strLe a b = true ∨ strLe b a = true := by
  unfold strLe
  cases h : lexLt b.data a.data with
  | false => left; rfl
  | true => right; rw [lexLt_asymm h]; rfl

lemma strLe_trans {a b c : String} (h1 : strLe a b = true) (h2 : strLe b c = true) :
    strLe a c = true := by
  unfold strLe at *
  simp only [Bool.not_eq_true'] at h1 h2 ⊢
  cases hc : lexLt c.data a.data with
  | false => rfl
  | true =>
    exfalso
    rcases lexLt_trichotomy b.data a.data with h | h | h
    · rw [h] at h1; simp at h1
    · rw [← h] at hc
      rw [hc] at h2
      simp at h2
    · have h3 := lexLt_trans hc h
      rw [h3] at h2
      simp at h2

lemma strLt_of_le_of_ne {a b : String} (h1 : strLe a b = true) (h2 : a ≠ b) :
    strLt a b = true := by
  unfold strLe at h1
  unfold strLt
  rw [Bool.not_eq_true'] at h1
  rcases lexLt_trichotomy a.data b.data with h | h | h
  · exact h
  · exfalso
    apply h2
    cases a
    cases b
    exact congrArg String.mk (by simpa using h)
  · rw [h] at h1
    simp at h1

lemma strLt_irrefl (a : String) : strLt a a = false := lexLt_irrefl a.data

lemma strLt_ne {a b : String} (h : strLt a b = true) : a ≠ b := by
  intro hEq
  rw [hEq, strLt_irrefl] at h
  simp at h

/-! ### `pathlib` stem/suffix on a bare filename

CPython: `suffix` is `name[i:]` for `i = name.rfind('.')` when `0 < i <
len(name) - 1`, else empty; `stem` is the rest. -/

/-- Split a filename into `(stem, suffix)` following `pathlib.PurePath`. -/
def pySplitExt (l : List Char) : List Char × List Char :=
  let rev := l.reverse
  let pre := rev.takeWhile (fun c => c ≠ '.')
  match rev.dropWhile (fun c => c ≠ '.') with
  | [] => (l, [])
  | _ :: r =>
    if r = [] then (l, [])
    else if pre = [] then (l, [])
    else (r.reverse, '.' :: pre.reverse)

/-- `Path(name).stem`. -/
def pyStem (name : String) : String := ⟨(pySplitExt name.data).1⟩

/-- `Path(name).suffix`. -/
def pySuffix (name : String) : String := ⟨(pySplitExt name.data).2⟩

/-! ### Page ordering (`receipt_io._page_sort_key`) -/

/-- Numeric value of an ASCII digit run, as Python `int()`. -/
def digitsVal (ds : List Char) : Nat :=
  ds.foldl (fun n c => n * 10 + (c.toNat - 48)) 0

/-- Match the regex `page[_-]?(\d+)` (with `re.IGNORECASE`) anchored at the
head of `l`: the literal `page` case-insensitively, then the optional
separator (taken greedily, with backtracking: a separator not followed by a
digit cannot be part of a match, since the digit class does not contain it),
then a maximal nonempty digit run. -/
def matchPageAt (l : List Char) : Option Nat :=
  match l with
  | c1 :: c2 :: c3 :: c4 :: rest =>
    if c1.toLower = 'p' && c2.toLower = 'a' && c3.toLower = 'g' && c4.toLower = 'e' then
      match rest with
      | [] => none
      | c5 :: rest2 =>
        if c5 = '_' || c5 = '-' then
          match rest2.takeWhile Char.isDigit with
          | [] => none
          | ds => some (digitsVal ds)
        else
          match rest.takeWhile Char.isDigit with
          | [] => none
          | ds => some (digitsVal ds)
    else none
  | _ => none

/-- `re.search(r"page[_-]?(\d+)", l, re.IGNORECASE)`: try the pattern at each
position from the left, returning the number of the leftmost match. -/
def searchPage : List Char → Option Nat
  | [] => none
  | l@(_ :: t) =>
    match matchPageAt l with
    | some n => some n
    | none => searchPage t

/-- Helper for `re.findall(r"(\d+)", l)`: accumulate the current digit run
(reversed) while walking the characters. -/
def digitRunsAux : List Char → List Char → List (List Char)
  | [], cur => if cur = [] then [] else [cur.reverse]
  | c :: t, cur =>
    if c.isDigit then digitRunsAux t (c :: cur)
    else if cur = [] then digitRunsAux t [] else cur.reverse :: digitRunsAux t []

/-- `re.findall(r"(\d+)", l)`: the maximal digit runs, left to right. -/
def digitRuns (l : List Char) : List (List Char) := digitRunsAux l []

/-- The sort key domain: `float("inf")` is modelled as `none`; Python compares
the `(number, filename)` tuples lexicographically. -/
abbrev PageKey := Option Nat × String

/-- Python `<` on the numeric component (`none` is `float("inf")`). -/
def numLt : Option Nat → Option Nat → Bool
  | some a, some b => a < b
  | some _, none => true
  | none, _ => false

/-- Python `<` on `(number, filename)` tuples. -/
def keyLt (k1 k2 : PageKey) : Bool :=
  if numLt k1.1 k2.1 then true
  else if numLt k2.1 k1.1 then false
  else lexLt k1.2.data k2.2.data

/-- Python `<=` on keys (`not (k2 < k1)`), the relation a stable ascending
sort by `keyLt` corresponds to. -/
def keyLE (k1 k2 : PageKey) : Bool := !(keyLt k2 k1)

/-- `receipt_io._page_sort_key` for a page filename (in the source the
argument is the full `Path`; `stem` and `name` only depend on the final
component, which is what is modelled). -/
def _page_sort_key (name : String) : PageKey :=
  match searchPage (pyStem name).data with
  | some n => (some n, name)
  | none =>
    match (digitRuns (pyStem name).data).getLast? with
    | some ds => (some (digitsVal ds), name)
    | none => (none, name)

/-! ### Receipt discovery (`receipt_io.discover_receipts`) -/

/-- `receipt_io.PNG_EXTENSIONS`. -/
def PNG_EXTENSIONS : List String := [".png", ".PNG"]

/-- `receipt_io.ReceiptGroup` (pages kept as ordered file names). -/
structure ReceiptGroup where
  name : String
  pages : List String
  deriving DecidableEq

/-- `ReceiptGroup.page_count`. -/
def ReceiptGroup.page_count (g : ReceiptGroup) : Nat := g.pages.length

/-- An entry inside a receipt directory: a name plus whether `is_file()`. -/
structure Child where
  name : String
  isFile : Bool
  deriving DecidableEq

/-- An immediate child of the root directory: a plain file, or a directory
with its own entries. -/
inductive Entry where
  | file (name : String)
  | dir (name : String) (children : List Child)
  deriving DecidableEq

/-- The name a `sorted(root.iterdir())` comparison sees (siblings share the
parent path, so `Path` order is name order). -/
def entryName : Entry → String
  | .file n => n
  | .dir n _ => n

/-- Order on root entries used by `sorted(root.iterdir())`. -/
abbrev entryLE (a b : Entry) : Prop := strLe (entryName a) (entryName b) = true

/-- Order on directory children used by
`sorted(entry.iterdir(), key=_page_sort_key)`. -/
abbrev pageKeyLE (a b : Child) : Prop :=
  keyLE (_page_sort_key a.name) (_page_sort_key b.name) = true

instance : DecidableRel entryLE := fun _ _ => instDecidableEqBool _ _

instance : DecidableRel pageKeyLE := fun _ _ => instDecidableEqBool _ _

instance : IsTotal Entry entryLE := ⟨fun _ _ => strLe_total _ _⟩

instance : IsTrans Entry entryLE := ⟨fun _ _ _ => strLe_trans⟩

/-- The page comprehension condition of `discover_receipts`:
`p.is_file() and p.suffix in PNG_EXTENSIONS`. -/
def isPage (c : Child) : Bool := c.isFile && PNG_EXTENSIONS.contains (pySuffix c.name)

/-- `receipt_io.discover_receipts`: walk the sorted immediate children of the
root; for each directory, sort its entries by the page key, keep the regular
files with a suffix in `PNG_EXTENSIONS`, and emit a group when any pages
remain.  (`sorted` in CPython is a stable sort, as is `insertionSort`;
moreover both sort keys here are injective on sibling entries — full paths,
resp. tuples ending in the filename — so any sort produces the same list.) -/
def discover_receipts (root : List Entry) : List ReceiptGroup :=
  (List.insertionSort entryLE root).filterMap fun e =>
    match e with
    | .file _ => none
    | .dir n children =>
      let pages :=
        ((List.insertionSort pageKeyLE children).filter isPage).map (fun c => c.name)
      if pages = [] then none else some ⟨n, pages⟩

/-! ### Output packaging (`receipt_io.build_outputs_zip`) -/

/-- Order on the output directory's children used by
`sorted(output_dir_path.glob("*"))`. -/
abbrev childNameLE (a b : Child) : Prop := strLe a.name b.name = true

instance : DecidableRel childNameLE := fun _ _ => instDecidableEqBool _ _

instance : IsTotal Child childNameLE := ⟨fun _ _ => strLe_total _ _⟩

instance : IsTrans Child childNameLE := ⟨fun _ _ _ => strLe_trans⟩

/-- `receipt_io.build_outputs_zip`: iterate over the sorted immediate children
of the output directory and write each regular file into the archive under its
bare name (`arcname=file_path.name`); the result is the ordered entry-name
list of the archive. -/
def build_outputs_zip (children : List Child) : List String :=
  ((List.insertionSort childNameLE children).filter (fun c => c.isFile)).map
    (fun c => c.name)

/-! ### Helper lemmas about discovery and packaging -/

/-- Mapping `h` over a `filterMap` result is a sublist of mapping `g` over the
input, whenever `f a = some b` forces `h b = g a`. -/
lemma filterMap_map_sublist {α β γ : Type} (f : α → Option β) (g : α → γ) (h : β → γ)
    (hfg : ∀ a b, f a = some b → h b = g a) :
    ∀ l : List α, ((l.filterMap f).map h).Sublist (l.map g)
  | [] => by simp
  | a :: t => by
    cases hfa : f a with
    | none =>
      simp only [List.filterMap_cons, hfa, List.map_cons]
      exact (filterMap_map_sublist f g h hfg t).cons _
    | some b =>
      simp only [List.filterMap_cons, hfa, List.map_cons]
      rw [hfg a b hfa]
      exact (filterMap_map_sublist f g h hfg t).cons₂ _

/-! ### Safe ZIP extraction (`receipt_io.safe_extract_zip`)

Paths are modelled as POSIX component lists.  `Path.resolve()` on a
nonexistent path normalises `..` lexically; symbolic links are not modelled,
and the destination directory is taken absolute (for a relative one `resolve`
would prepend the process working directory). -/

/-- Python `s.split("/")` (helper walking the characters, `cur` reversed). -/
def splitSlashAux : List Char → List Char → List String
  | [], cur => [⟨cur.reverse⟩]
  | c :: t, cur =>
    if c = '/' then (⟨cur.reverse⟩ : String) :: splitSlashAux t []
    else splitSlashAux t (c :: cur)

/-- Python `s.split("/")`. -/
def splitSlash (s : String) : List String := splitSlashAux s.data []

/-- `pathlib` parsing of a POSIX path: its components, dropping empty parts
and `.` (pathlib discards both when parsing). -/
def comps (s : String) : List String :=
  (splitSlash s).filter (fun c => c ≠ "" && c ≠ ".")

/-- Python `s.startswith(pre)` (code-point prefix). -/
def strStartsWith (s pre : String) : Bool := pre.data.isPrefixOf s.data

/-- `Path(dest, member)`: an absolute second argument replaces the first. -/
def joinedComps (dest member : String) : List String :=
  if strStartsWith member "/" then comps member else comps dest ++ comps member

/-- `Path.resolve()` normalisation: `..` removes the previous component,
staying at the root when there is none. -/
def resolveComps (l : List String) : List String :=
  l.foldl (fun acc c => if c = ".." then acc.dropLast else acc ++ [c]) []

/-- `str(Path)` for an absolute path given by its components. -/
def pathStr (cs : List String) : String := "/" ++ String.intercalate "/" cs

/-- The per-member check of `safe_extract_zip`:
`str(Path(dest, member).resolve()).startswith(str(Path(dest).resolve()))`. -/
def memberSafe (dest member : String) : Bool :=
  strStartsWith (pathStr (resolveComps (joinedComps dest member)))
    (pathStr (resolveComps (comps dest)))

/-- The target path CPython's `ZipFile.extractall` materialises for one
member: the extractor itself drops empty, `.` and `..` parts of the entry
name and joins the remainder under the destination. -/
def extractTarget (dest member : String) : List String :=
  comps dest ++ (splitSlash member).filter (fun x => x ≠ "" && x ≠ "." && x ≠ "..")

/-- `receipt_io.safe_extract_zip`: run the check over every member — raising
at the first offender, before any extraction — and only when all pass,
extract all members (`zf.extractall`).  The `.ok` payload is the extraction
effect: the list of target paths materialised. -/
def safe_extract_zip (dest : String) (members : List String) :
    Except String (List (List String)) :=
  match members.find? (fun m => !(memberSafe dest m)) with
  | some m => .error ("Unsafe path detected in zip: " ++ m)
  | none => .ok (members.map (extractTarget dest))

/-- Containment of a resolved path in the destination root, component-wise:
the meaning of "lies inside the root". -/
def insideRoot (rootComps pathComps : List String) : Bool :=
  rootComps.isPrefixOf pathComps

/-- A child's name appears among a directory's collected pages iff that child
is a regular file whose suffix is literally in `PNG_EXTENSIONS` (sibling names
are distinct on a real file system). -/
lemma mem_pages_iff (children : List Child) (c : Child) (hmem : c ∈ children)
    (hnd : (children.map Child.name).Nodup) :
    (c.name ∈ ((List.insertionSort pageKeyLE children).filter isPage).map
        (fun c => c.name))
      ↔ (c.isFile = true ∧ PNG_EXTENSIONS.contains (pySuffix c.name) = true) := by
  have hperm := List.perm_insertionSort pageKeyLE children
  constructor
  · rintro hin
    rcases List.mem_map.mp hin with ⟨c', hc', hname⟩
    rcases List.mem_filter.mp hc' with ⟨hc'mem, hc'page⟩
    have hc'children : c' ∈ children := hperm.mem_iff.mp hc'mem
    have hcc : c' = c := List.inj_on_of_nodup_map hnd hc'children hmem hname
    subst hcc
    exact ⟨(Bool.and_eq_true _ _ ▸ hc'page).1, (Bool.and_eq_true _ _ ▸ hc'page).2⟩
  · rintro ⟨hfile, hext⟩
    apply List.mem_map.mpr
    refine ⟨c, List.mem_filter.mpr ⟨hperm.mem_iff.mpr hmem, ?_⟩, rfl⟩
    rw [isPage, hfile, Bool.true_and]
    exact hext

end ReceiptIO

namespace App

open ReceiptIO

/-- `prompts.MARKDOWN_INSTRUCTION` (the Python literal after `.strip()`;
braces appear escaped). -/
def MARKDOWN_INSTRUCTION : String := "You are extracting information from a receipt or invoice that may span multiple pages. Preserve reading order across pages. Do not hallucinate missing fields. Return ONLY markdown without code fences.
Use this layout:

# \x7bdocument_name\x7d
- Document type: receipt or invoice; if unsure say unknown
- Vendor: name and address in one line
- Date: ISO-8601 if possible, else as seen
- Receipt/Invoice #: value if present, else blank
- Currency: 3-letter code if possible
## Totals
- Subtotal: numeric or blank
- Tax: numeric or blank
- Shipping/Freight: numeric or blank; treat shipping and freight as the same charge
- Tip: numeric or blank
- Total: numeric or blank
- Payment method: card/cash/etc. if present
## Line items
| Description | Qty | Unit price | Amount |
|---|---:|---:|---:|
| ... |
## Notes
Additional notes or disclaimers; if none, leave blank."

/-- `prompts.JSON_INSTRUCTION` (the Python literal after `.strip()`; braces
appear escaped). -/
def JSON_INSTRUCTION : String := "Extract structured data from a receipt or invoice that may span multiple pages. Preserve reading order across pages. Do not hallucinate missing fields; use nulls for missing data. Treat shipping and freight as the same charge under the \"shipping\" field. Return ONLY a valid JSON object, no markdown, no backticks.
Schema:
\x7b\x7b
  \"document_name\": string,
  \"document_type\": \"receipt\"|\"invoice\"|\"unknown\",
  \"vendor\": \x7b\x7b
    \"name\": string|null,
    \"address\": string|null,
    \"phone\": string|null,
    \"tax_id\": string|null
  \x7d\x7d,
  \"invoice_or_receipt_number\": string|null,
  \"date\": string|null,
  \"currency\": string|null,
  \"subtotal\": number|null,
  \"tax\": number|null,
  \"shipping\": number|null,
  \"tip\": number|null,
  \"total\": number|null,
  \"payment_method\": string|null,
  \"line_items\": [\x7b\x7b
    \"description\": string,
    \"quantity\": number|null,
    \"unit_price\": number|null,
    \"amount\": number|null
  \x7d\x7d],
  \"notes\": string|null,
  \"confidence\": \x7b\x7b
    \"overall\": number,
    \"fields\": \x7b\x7b
      \"vendor.name\": number,
      \"date\": number,
      \"total\": number
    \x7d\x7d
  \x7d\x7d
\x7d\x7d"

/-- `prompts.JSON_REPAIR_PROMPT` (after `.strip()`). -/
def JSON_REPAIR_PROMPT : String := "The previous response was not valid JSON. Return ONLY valid JSON that conforms to the requested schema. Do not include explanations or markdown."

/-- One chat request to the llama.cpp server: the single user turn's text part
and its attached image parts (`LlamaClient._build_content`). -/
structure ModelCall where
  prompt : String
  images : List String
  deriving DecidableEq

/-- `app._build_prompt`. -/
def _build_prompt (receipt : ReceiptGroup) (output_format : String) : String :=
  let base := if output_format = "markdown" then MARKDOWN_INSTRUCTION else JSON_INSTRUCTION
  let guidance := "This is ONE receipt/invoice spanning multiple pages; preserve reading order; do not hallucinate; if a field is missing, use null or leave blank appropriately. Document name: " ++ receipt.name ++ "."
  base ++ "\n\n" ++ guidance

/-- `receipt_io.encode_image_to_data_url`, with reading the file's bytes and
base64-encoding them (I/O and stdlib) abstracted into the page's base64
content. -/
def encode_image_to_data_url (contentB64 : String) : String :=
  "data:image/png;base64," ++ contentB64

/-- The first request `_run_model` issues for a receipt: the built prompt with
every page image attached, in page order. -/
def firstCall (encodeB64 : String → String) (receipt : ReceiptGroup)
    (output_format : String) : ModelCall :=
  ⟨_build_prompt receipt output_format,
   receipt.pages.map (fun p => encode_image_to_data_url (encodeB64 p))⟩

/-- The repair request: the fixed repair instruction concatenated with the
malformed response, with no images (`llama.chat_json(f"...", images=[])`). -/
def repairCall (response : String) : ModelCall :=
  ⟨JSON_REPAIR_PROMPT ++ "\n\n" ++ response, []⟩

/-- `app._run_model`.  The llama.cpp client is abstracted as a deterministic
oracle `model` from a request to a response text, and `json.loads` succeeding
as the predicate `parses`; `encodeB64` supplies each page file's base64
content.  Besides the returned text, the list of issued requests is collected
so that claims can count repair round-trips. -/
def _run_model (parses : String → Bool) (model : ModelCall → String)
    (encodeB64 : String → String) (receipt : ReceiptGroup)
    (output_format : String) : String × List ModelCall :=
  if output_format = "markdown" then
    (model (firstCall encodeB64 receipt output_format),
     [firstCall encodeB64 receipt output_format])
  else
    let response := model (firstCall encodeB64 receipt output_format)
    if parses response then (response, [firstCall encodeB64 receipt output_format])
    else
      (model (repairCall response),
       [firstCall encodeB64 receipt output_format, repairCall response])

end App

namespace Claims

open ReceiptIO

/-- C6: `sanitize_filename` replaces every path separator (`/` and `\`) by an
underscore and trims surrounding whitespace (it agrees with the spec's
one-pass replace-then-trim description, and no separator survives);
in particular `A/B\C` sanitises to `A_B_C`. -/
theorem C6_sanitize_replaces_separators :
    sanitize_filename "A/B\\C" = "A_B_C" ∧
    (∀ s : String, sanitize_filename s = sanitizeSpec s) ∧
    (∀ (s : String) (c : Char), c ∈ (sanitize_filename s).data → c ≠ '/' ∧ c ≠ '\\') :=
  ⟨by decide, sanitize_eq_spec, fun s _ hc => sanitize_no_sep s hc⟩

/-- C9: `sanitize_filename` is idempotent. -/
theorem C9_sanitize_idempotent (s : String) :
    sanitize_filename (sanitize_filename s) = sanitize_filename s := by
  have h1 : replaceChar '\\' '_' (replaceChar '/' '_' (sanitize_filename s).data)
      = (sanitize_filename s).data := by
    rw [replaceChar_replaceChar]
    have hid : ∀ c ∈ (sanitize_filename s).data,
        (if c = '/' || c = '\\' then '_' else c) = id c := by
      intro c hc
      rcases sanitize_no_sep s hc with ⟨hc1, hc2⟩
      simp [hc1, hc2]
    rw [List.map_congr_left hid, List.map_id]
  show pyStrip ⟨replaceChar '\\' '_' (replaceChar '/' '_' (sanitize_filename s).data)⟩
      = sanitize_filename s
  rw [h1]
  show String.mk (pyStripL (sanitize_filename s).data) = sanitize_filename s
  have h2 : (sanitize_filename s).data
      = pyStripL (replaceChar '\\' '_' (replaceChar '/' '_' s.data)) := rfl
  conv_rhs => rw [show sanitize_filename s = String.mk (sanitize_filename s).data from rfl]
  exact congrArg String.mk (by rw [h2]; exact pyStripL_idem _)

/-- C8: `write_output` creates the output directory idempotently, writes the
content to `<sanitizedName>.<ext>` (`md` for markdown, `json` for structured
output), and overwrites an existing file of the same name: after two writes
with the same name the stored content is exactly the second call's content. -/
theorem C8_write_output_overwrites (name c1 c2 fmt dir : String) (fs : FS) :
    (write_output name c1 fmt dir fs).1
        = dir ++ "/" ++ sanitize_filename name ++ "."
          ++ (if fmt = "markdown" then "md" else "json") ∧
    (write_output name c2 fmt dir (write_output name c1 fmt dir fs).2).1
        = (write_output name c1 fmt dir fs).1 ∧
    ((write_output name c2 fmt dir (write_output name c1 fmt dir fs).2).2).files
        (write_output name c1 fmt dir fs).1 = some c2 ∧
    dir ∈ ((write_output name c1 fmt dir fs).2).dirs ∧
    ensure_directory (ensure_directory fs.dirs dir) dir
        = ensure_directory fs.dirs dir := by
  refine ⟨rfl, rfl, ?_, ?_, ensure_directory_idem fs.dirs dir⟩
  · simp [write_output, write_text]
  · simpa [write_output, write_text] using ensure_directory_mem fs.dirs dir

/-- C10: for every output format other than the exact string `"markdown"`
(not only the structured format), `write_output` writes to
`<sanitizedName>.json`. -/
theorem C10_nonmarkdown_gets_json (name content fmt dir : String) (fs : FS)
    (h : fmt ≠ "markdown") :
    (write_output name content fmt dir fs).1
      = dir ++ "/" ++ sanitize_filename name ++ ".json" := by
  simp only [write_output, h, if_false, ite_false]
  rw [String.append_assoc]
  rfl

/-- Witness for C10 at the concrete format string `"xml"`. -/
theorem C10_nonmarkdown_gets_json_witness :
    ("xml" : String) ≠ "markdown" ∧
    (write_output "r" "c" "xml" "out" ⟨[], fun _ => none⟩).1 = "out/r.json" := by
  refine ⟨by decide, ?_⟩
  rw [C10_nonmarkdown_gets_json "r" "c" "xml" "out" ⟨[], fun _ => none⟩ (by decide)]
  decide

/-- C2: the page ordering key is `(matched number, filename)` when the stem
matches `page[_-]?(\d+)` case-insensitively, else `(last digit run, filename)`
when the stem has digit runs, else `(+infinity, filename)`; the infinite key
sorts after every numbered key and numeric ties break by filename; and a
folder with `a_page2.png`, `a_page1.png`, `a_page10.png` is discovered in the
order `a_page1.png, a_page2.png, a_page10.png`. -/
theorem C2_page_ordering_key :
    (∀ (name : String) (n : Nat), searchPage (pyStem name).data = some n →
        _page_sort_key name = (some n, name)) ∧
    (∀ (name : String) (ds : List Char), searchPage (pyStem name).data = none →
        (digitRuns (pyStem name).data).getLast? = some ds →
        _page_sort_key name = (some (digitsVal ds), name)) ∧
    (∀ name : String, searchPage (pyStem name).data = none →
        digitRuns (pyStem name).data = [] →
        _page_sort_key name = (none, name)) ∧
    (∀ (n : Nat) (s t : String), keyLt (some n, s) (none, t) = true) ∧
    (∀ (n : Nat) (s t : String), keyLt (some n, s) (some n, t) = lexLt s.data t.data) ∧
    discover_receipts
        [Entry.dir "a" [⟨"a_page2.png", true⟩, ⟨"a_page1.png", true⟩,
          ⟨"a_page10.png", true⟩]]
      = [⟨"a", ["a_page1.png", "a_page2.png", "a_page10.png"]⟩] := by
  refine ⟨?_, ?_, ?_, ?_, ?_, by decide⟩
  · intro name n h
    unfold _page_sort_key
    rw [h]
  · intro name ds h1 h2
    unfold _page_sort_key
    rw [h1, h2]
  · intro name h1 h2
    unfold _page_sort_key
    rw [h1, h2]
    rfl
  · intro n s t
    simp [keyLt, numLt]
  · intro n s t
    simp [keyLt, numLt]

/-- Witness for C2: the three key cases at concrete filenames. -/
theorem C2_page_ordering_key_witness :
    _page_sort_key "a_page2.png" = (some 2, "a_page2.png") ∧
    _page_sort_key "img_10.png" = (some 10, "img_10.png") ∧
    _page_sort_key "cover.png" = (none, "cover.png") :=
  ⟨C2_page_ordering_key.1 "a_page2.png" 2 (by decide),
   C2_page_ordering_key.2.1 "img_10.png" ['1', '0'] (by decide) (by decide),
   C2_page_ordering_key.2.2.1 "cover.png" (by decide) (by decide)⟩

/-- C3 as stated is false: the supported extensions are the two literal
strings `.png` and `.PNG`, not a case-insensitive match.  `x.Png` has an
extension that case-insensitively equals `.png`, yet discovery excludes it
(while `x.png` is included). -/
theorem C3_counterexample :
    (pySuffix "x.Png").data.map Char.toLower = ".png".data ∧
    discover_receipts [Entry.dir "d" [⟨"x.Png", true⟩]] = [] ∧
    discover_receipts [Entry.dir "d" [⟨"x.png", true⟩]] = [⟨"d", ["x.png"]⟩] := by
  refine ⟨by decide, by decide, by decide⟩

/-- C3 amended: a regular file in an immediate subdirectory is included as a
page iff its suffix is exactly `.png` or exactly `.PNG`; other casings such as
`.Png` are excluded. -/
theorem C3_extension_exact_match (dname : String) (children : List Child) (c : Child)
    (hmem : c ∈ children) (hnd : (children.map Child.name).Nodup) :
    (∃ g ∈ discover_receipts [Entry.dir dname children], c.name ∈ g.pages) ↔
      (c.isFile = true ∧ (pySuffix c.name = ".png" ∨ pySuffix c.name = ".PNG")) := by
  have hkey := mem_pages_iff children c hmem hnd
  have hext : (PNG_EXTENSIONS.contains (pySuffix c.name) = true) ↔
      (pySuffix c.name = ".png" ∨ pySuffix c.name = ".PNG") := by
    simp [PNG_EXTENSIONS]
  have hsingle : List.insertionSort entryLE [Entry.dir dname children]
      = [Entry.dir dname children] := rfl
  set P := ((List.insertionSort pageKeyLE children).filter isPage).map
    (fun c => c.name) with hP
  have hdisc : discover_receipts [Entry.dir dname children]
      = if P = [] then [] else [⟨dname, P⟩] := by
    rw [discover_receipts, hsingle, List.filterMap_cons, List.filterMap_nil]
    dsimp only
    rw [← hP]
    by_cases hempty : P = []
    · simp [hempty]
    · simp [hempty]
  by_cases hempty : P = []
  · rw [hdisc, if_pos hempty]
    simp only [List.not_mem_nil, false_and, exists_false, false_iff]
    intro hrhs
    have hmemP := hkey.mpr ⟨hrhs.1, hext.mpr hrhs.2⟩
    rw [hempty] at hmemP
    exact List.not_mem_nil _ hmemP
  · rw [hdisc, if_neg hempty]
    constructor
    · rintro ⟨g, hg, hpg⟩
      rcases List.mem_singleton.mp hg with rfl
      have hck := hkey.mp hpg
      exact ⟨hck.1, hext.mp hck.2⟩
    · intro hrhs
      exact ⟨⟨dname, P⟩, List.mem_singleton.mpr rfl, hkey.mpr ⟨hrhs.1, hext.mpr hrhs.2⟩⟩

/-- Witness for C3 amended: a qualifying `.png` file in a singleton directory
is discovered. -/
theorem C3_extension_exact_match_witness :
    (⟨"x.png", true⟩ : Child) ∈ [(⟨"x.png", true⟩ : Child)] ∧
    ([(⟨"x.png", true⟩ : Child)].map Child.name).Nodup ∧
    (∃ g ∈ discover_receipts [Entry.dir "d" [⟨"x.png", true⟩]], "x.png" ∈ g.pages) :=
  ⟨by decide, by decide,
    (C3_extension_exact_match "d" [⟨"x.png", true⟩] ⟨"x.png", true⟩
      (by decide) (by decide)).mpr ⟨rfl, Or.inl rfl⟩⟩

/-- C4: on a root whose sibling names are distinct (a file-system invariant),
every discovered group has a non-empty page list, the groups are ordered by
directory name strictly ascending in the code-point (case-sensitive)
lexicographic order, and group names are unique. -/
theorem C4_discover_invariants (root : List Entry)
    (hnd : (root.map entryName).Nodup) :
    (∀ g ∈ discover_receipts root, g.pages ≠ []) ∧
    List.Pairwise (fun a b : String => strLt a b = true)
      ((discover_receipts root).map ReceiptGroup.name) ∧
    ((discover_receipts root).map ReceiptGroup.name).Nodup := by
  have hsorted : List.Sorted entryLE (List.insertionSort entryLE root) :=
    List.sorted_insertionSort entryLE root
  have hnames_le : List.Pairwise (fun a b : String => strLe a b = true)
      ((List.insertionSort entryLE root).map entryName) :=
    List.Pairwise.map entryName (fun _ _ h => h) hsorted
  have hnd' : ((List.insertionSort entryLE root).map entryName).Nodup :=
    (((List.perm_insertionSort entryLE root).map entryName).nodup_iff).mpr hnd
  have hsub : ((discover_receipts root).map ReceiptGroup.name).Sublist
      ((List.insertionSort entryLE root).map entryName) := by
    apply filterMap_map_sublist
    intro e g hfe
    cases e with
    | file n => exact absurd hfe (by simp)
    | dir n children =>
      simp only at hfe
      split at hfe
      · exact absurd hfe (by simp)
      · cases hfe
        rfl
  have hpair_le := List.Pairwise.sublist hsub hnames_le
  have hnd_names := hsub.nodup hnd'
  have hpair_lt : List.Pairwise (fun a b : String => strLt a b = true)
      ((discover_receipts root).map ReceiptGroup.name) :=
    (hpair_le.and hnd_names).imp (fun hab => strLt_of_le_of_ne hab.1 hab.2)
  refine ⟨?_, hpair_lt, hnd_names⟩
  intro g hg
  rcases List.mem_filterMap.mp hg with ⟨e, _, hfe⟩
  cases e with
  | file n => exact absurd hfe (by simp)
  | dir n children =>
    simp only at hfe
    split at hfe
    · exact absurd hfe (by simp)
    · cases hfe
      assumption

/-- Witness for C4 at a concrete two-directory root. -/
theorem C4_discover_invariants_witness :
    (([Entry.dir "b" [⟨"p1.png", true⟩], Entry.dir "a" [⟨"q2.png", true⟩]].map
        entryName).Nodup) ∧
    (∀ g ∈ discover_receipts
        [Entry.dir "b" [⟨"p1.png", true⟩], Entry.dir "a" [⟨"q2.png", true⟩]],
      g.pages ≠ []) ∧
    List.Pairwise (fun a b : String => strLt a b = true)
      ((discover_receipts
        [Entry.dir "b" [⟨"p1.png", true⟩], Entry.dir "a" [⟨"q2.png", true⟩]]).map
          ReceiptGroup.name) :=
  ⟨by decide,
   (C4_discover_invariants _ (by decide)).1,
   (C4_discover_invariants _ (by decide)).2.1⟩

/-- C7: the archive entries are exactly the names of the immediate
regular-file children of the output directory, sorted strictly ascending by
name; in particular a directory with `x.md` and `a.json` packs to the two
entries `a.json`, `x.md` in that order. -/
theorem C7_zip_entries (children : List Child)
    (hnd : (children.map Child.name).Nodup) :
    build_outputs_zip [⟨"x.md", true⟩, ⟨"a.json", true⟩] = ["a.json", "x.md"] ∧
    (∀ s : String, s ∈ build_outputs_zip children ↔
        ∃ c ∈ children, c.isFile = true ∧ c.name = s) ∧
    List.Pairwise (fun a b : String => strLt a b = true)
      (build_outputs_zip children) := by
  have hperm := List.perm_insertionSort childNameLE children
  refine ⟨by decide, ?_, ?_⟩
  · intro s
    unfold build_outputs_zip
    constructor
    · intro hin
      rcases List.mem_map.mp hin with ⟨c, hc, hname⟩
      rcases List.mem_filter.mp hc with ⟨hcmem, hcfile⟩
      exact ⟨c, hperm.mem_iff.mp hcmem, hcfile, hname⟩
    · rintro ⟨c, hcmem, hcfile, hname⟩
      exact List.mem_map.mpr
        ⟨c, List.mem_filter.mpr ⟨hperm.mem_iff.mpr hcmem, hcfile⟩, hname⟩
  · have hsorted : List.Sorted childNameLE (List.insertionSort childNameLE children) :=
      List.sorted_insertionSort childNameLE children
    have hfil : (List.filter (fun c => c.isFile) (List.insertionSort childNameLE children)).Sublist
        (List.insertionSort childNameLE children) := List.filter_sublist _
    have hpair_le : List.Pairwise (fun a b : String => strLe a b = true)
        (build_outputs_zip children) :=
      List.Pairwise.map Child.name (fun _ _ h => h) (List.Pairwise.sublist hfil hsorted)
    have hnd' : (build_outputs_zip children).Nodup := by
      have h1 : ((List.insertionSort childNameLE children).map Child.name).Nodup :=
        (((List.perm_insertionSort childNameLE children).map Child.name).nodup_iff).mpr hnd
      exact (hfil.map Child.name).nodup h1
    exact (hpair_le.and hnd').imp (fun hab => strLt_of_le_of_ne hab.1 hab.2)

/-- Witness for C7 at a concrete directory listing. -/
theorem C7_zip_entries_witness :
    (([(⟨"x.md", true⟩ : Child), ⟨"a.json", true⟩].map Child.name).Nodup) ∧
    build_outputs_zip [⟨"x.md", true⟩, ⟨"a.json", true⟩] = ["a.json", "x.md"] :=
  ⟨by decide, (C7_zip_entries [⟨"x.md", true⟩, ⟨"a.json", true⟩] (by decide)).1⟩

/-- C1 as stated is false: the entry `../work2/x` against destination
`/tmp/work` resolves to `/tmp/work2/x`, which lies outside the root, yet the
`str.startswith` check accepts it because `/tmp/work2/x` begins with the
string `/tmp/work`; `safe_extract_zip` succeeds and extracts the entry (the
extractor sanitises it into the root) instead of failing with a traversal
error. -/
theorem C1_counterexample :
    insideRoot (resolveComps (comps "/tmp/work"))
        (resolveComps (joinedComps "/tmp/work" "../work2/x")) = false ∧
    memberSafe "/tmp/work" "../work2/x" = true ∧
    safe_extract_zip "/tmp/work" ["../work2/x"]
      = .ok [["tmp", "work", "work2", "x"]] := by
  refine ⟨by decide, by decide, by rfl⟩

/-- C1 amended: every entry whose resolved path string does not start with the
resolved destination root string makes `safe_extract_zip` fail with a
path-traversal error, with nothing extracted: the check covers every entry
before any extraction happens.  On success every materialised file lies inside
the destination root (the extractor strips parent-directory components).  An
entry resolving outside the root whose resolved path string merely extends the
root string, however, is accepted. -/
theorem C1_traversal_check (dest : String) (members : List String) :
    ((∃ m ∈ members, memberSafe dest m = false) →
      ∃ e, safe_extract_zip dest members = Except.error e) ∧
    ((∀ m ∈ members, memberSafe dest m = true) →
      safe_extract_zip dest members = .ok (members.map (extractTarget dest))) ∧
    (∀ paths, safe_extract_zip dest members = .ok paths →
      ∀ p ∈ paths, insideRoot (comps dest) p = true) := by
  refine ⟨?_, ?_, ?_⟩
  · rintro ⟨m, hm, hbad⟩
    unfold safe_extract_zip
    cases hfind : members.find? (fun m => !(memberSafe dest m)) with
    | some m' => exact ⟨_, rfl⟩
    | none =>
      exfalso
      have hall := List.find?_eq_none.mp hfind m hm
      simp [hbad] at hall
  · intro hall
    unfold safe_extract_zip
    cases hfind : members.find? (fun m => !(memberSafe dest m)) with
    | some m' =>
      exfalso
      have hp := List.find?_some hfind
      rw [hall m' (List.mem_of_find?_eq_some hfind)] at hp
      simp at hp
    | none => rfl
  · intro paths hok p hp
    unfold safe_extract_zip at hok
    cases hfind : members.find? (fun m => !(memberSafe dest m)) with
    | some m' =>
      rw [hfind] at hok
      exact absurd hok (by simp)
    | none =>
      rw [hfind] at hok
      cases hok
      rcases List.mem_map.mp hp with ⟨m, _, rfl⟩
      unfold extractTarget insideRoot
      exact List.isPrefixOf_iff_prefix.mpr (List.prefix_append _ _)

/-- Witness for C1 amended: an absolute entry is rejected before anything is
extracted; a plain relative entry extracts inside the root. -/
theorem C1_traversal_check_witness :
    (∃ e, safe_extract_zip "/d" ["/etc/passwd"] = Except.error e) ∧
    safe_extract_zip "/d" ["a/b"] = .ok [["d", "a", "b"]] ∧
    insideRoot (comps "/d") ["d", "a", "b"] = true :=
  ⟨(C1_traversal_check "/d" ["/etc/passwd"]).1 ⟨"/etc/passwd", by decide, by decide⟩,
   (C1_traversal_check "/d" ["a/b"]).2.1 (by decide),
   (C1_traversal_check "/d" ["a/b"]).2.2 [["d", "a", "b"]]
     ((C1_traversal_check "/d" ["a/b"]).2.1 (by decide)) ["d", "a", "b"] (by decide)⟩

/-- C5: for the structured (`json`) format, a parsing response is returned
unchanged after a single request; a non-parsing response triggers exactly one
repair request — the fixed repair instruction concatenated with the malformed
response, with no images attached — whose answer is returned without
re-validation; and no run ever issues more than two requests, hence never more
than one repair. -/
theorem C5_single_repair (parses : String → Bool) (model : App.ModelCall → String)
    (encodeB64 : String → String) (receipt : ReceiptGroup) :
    (parses (model (App.firstCall encodeB64 receipt "json")) = true →
      App._run_model parses model encodeB64 receipt "json"
        = (model (App.firstCall encodeB64 receipt "json"),
           [App.firstCall encodeB64 receipt "json"])) ∧
    (parses (model (App.firstCall encodeB64 receipt "json")) = false →
      App._run_model parses model encodeB64 receipt "json"
        = (model (App.repairCall (model (App.firstCall encodeB64 receipt "json"))),
           [App.firstCall encodeB64 receipt "json",
            App.repairCall (model (App.firstCall encodeB64 receipt "json"))])) ∧
    (∀ r : String, (App.repairCall r).images = [] ∧
      (App.repairCall r).prompt = App.JSON_REPAIR_PROMPT ++ "\n\n" ++ r) ∧
    (App._run_model parses model encodeB64 receipt "json").2.length ≤ 2 := by
  refine ⟨?_, ?_, fun r => ⟨rfl, rfl⟩, ?_⟩
  · intro h
    unfold App._run_model
    rw [if_neg (by decide : ¬("json" : String) = "markdown")]
    simp only [h, if_true]
  · intro h
    unfold App._run_model
    rw [if_neg (by decide : ¬("json" : String) = "markdown")]
    simp only [h, Bool.false_eq_true, if_false]
  · unfold App._run_model
    rw [if_neg (by decide : ¬("json" : String) = "markdown")]
    by_cases h : parses (model (App.firstCall encodeB64 receipt "json")) = true
    · simp [h]
    · rw [Bool.not_eq_true] at h
      simp [h]

/-- Witness for C5: a parsing first response is returned with one request; a
non-parsing one is followed by exactly the image-free repair request, whose
answer is returned as is. -/
theorem C5_single_repair_witness :
    App._run_model (fun s => s = "ok") (fun _ => "ok") (fun _ => "AA")
        ⟨"r", ["p"]⟩ "json"
      = ("ok", [App.firstCall (fun _ => "AA") ⟨"r", ["p"]⟩ "json"]) ∧
    App._run_model (fun s => s = "ok")
        (fun c => if c.images.isEmpty then "still bad" else "bad")
        (fun _ => "AA") ⟨"r", ["p"]⟩ "json"
      = ("still bad",
         [App.firstCall (fun _ => "AA") ⟨"r", ["p"]⟩ "json", App.repairCall "bad"]) :=
  ⟨(C5_single_repair (fun s => s = "ok") (fun _ => "ok") (fun _ => "AA")
      ⟨"r", ["p"]⟩).1 (by decide),
   by
    rw [(C5_single_repair (fun s => s = "ok")
        (fun c => if c.images.isEmpty then "still bad" else "bad") (fun _ => "AA")
        ⟨"r", ["p"]⟩).2.1 (by decide)]
    rfl⟩

end Claims
